import Mathlib

/-!
# cloudfox: Azure resource inventory table and composite commands

A shallow embedding of

* `azure/runbooks.go`, function `RunbookCommand`: paged collection of the
  resources, the aggregation loop that fills `inventory`, `resourceTypes` and
  `resourceLocations`, the projection to `header` and `body`, `sort.Slice` on
  the body and the final call of `internal.OutputSelector`;
* `cli/azure.go`: the `Run` closures of the cobra commands `inventory`, `rbac`,
  `vms`, `storage`, `runbooks` and of the two composite commands
  `all-enumchecks` and `all-vulnchecks`.

Conventions.

* A Go `map[string]V` is an association list with at most one binding per key.
  A `range` over a map visits every key once, in an order the runtime picks
  afresh for every loop; the orders are therefore inputs of the model
  (`RangeOrders`) and the loops are folds over them.
* A Go `string` is a Lean `String`; `<` on Go strings is bytewise
  lexicographic, which on UTF-8 text is the code point order used by Lean.
* The counts are Go `int`s. A count never exceeds `len(resources)`, itself an
  `int`, so the increment never wraps and the counts are modelled in `Nat`.
* `fmt.Sprintf("%d", count)` of a non-negative count is `Nat.repr count`.
-/

namespace Cloudfox

/-! ## Go maps -/

/-- A Go `map[string]V`. -/
abbrev GoMap (V : Type) := List (String × V)

/-- The comma-ok read `v, ok := m[k]`: `some v` when `k` is bound. -/
def GoMap.lookup {V : Type} : GoMap V → String → Option V
  | [], _ => none
  | (k', v) :: rest, k => if k' = k then some v else GoMap.lookup rest k

/-- The assignment `m[k] = v`: overwrites the binding of `k`, or adds one. -/
def GoMap.store {V : Type} : GoMap V → String → V → GoMap V
  | [], k, v => [(k, v)]
  | (k', v') :: rest, k, v =>
    if k' = k then (k, v) :: rest else (k', v') :: GoMap.store rest k v

/-- The keys bound in the map. -/
def GoMap.keys {V : Type} (m : GoMap V) : List String := m.map Prod.fst

/-! ## azure/runbooks.go -/

/-- The two fields of `armresources.GenericResourceExpanded` that the code
reads; both are `*string` and may be nil. -/
structure GenericResourceExpanded where
  Type_ : Option String
  Location : Option String
deriving DecidableEq, Repr

/-- The helper `ptr.ToString`: the pointed-to string, `""` for nil. -/
def ptr.ToString : Option String → String
  | some s => s
  | none => ""

/-- The three maps filled by the aggregation loop (lines 41-43). -/
structure Aggregation where
  inventory : GoMap (GoMap Nat)
  resourceTypes : GoMap Bool
  resourceLocations : GoMap Bool
deriving DecidableEq, Repr

/-- The three `make(...)` calls: all maps empty. -/
def Aggregation.init : Aggregation := ⟨[], [], []⟩

/-- One iteration of `for _, resource := range resources` (lines 46-55). -/
def aggregateStep (s : Aggregation) (resource : GenericResourceExpanded) : Aggregation :=
  let resourceType := ptr.ToString resource.Type_
  let resourceLocation := ptr.ToString resource.Location
  -- _, ok := inventory[resourceType]; if !ok { inventory[resourceType] = make(map[string]int) }
  let inventory :=
    match GoMap.lookup s.inventory resourceType with
    | some _ => s.inventory
    | none => GoMap.store s.inventory resourceType []
  -- inventory[resourceType][resourceLocation]++
  let inner := (GoMap.lookup inventory resourceType).getD []
  let count := (GoMap.lookup inner resourceLocation).getD 0
  ⟨GoMap.store inventory resourceType (GoMap.store inner resourceLocation (count + 1)),
   GoMap.store s.resourceTypes resourceType true,
   GoMap.store s.resourceLocations resourceLocation true⟩

/-- The aggregation loop (lines 41-56). -/
def aggregate (resources : List GenericResourceExpanded) : Aggregation :=
  resources.foldl aggregateStep Aggregation.init

/-- The orders in which the runtime enumerates the maps: one for the header
loop (line 60), one for the loop over `resourceTypes` (line 64) and, for the
row of every type, one for the inner loop over `resourceLocations` (line 66). -/
structure RangeOrders where
  header : List String
  types : List String
  row : String → List String

/-- The orders are legal for the given maps: each `range` visits every key of
its map exactly once. -/
def RangeOrders.Legal (o : RangeOrders) (s : Aggregation) : Prop :=
  o.header.Perm (GoMap.keys s.resourceLocations) ∧
  o.types.Perm (GoMap.keys s.resourceTypes) ∧
  ∀ t ∈ o.types, (o.row t).Perm (GoMap.keys s.resourceLocations)

/-- Lines 58-62: `header := []string{"Resource Type"}` extended by one
location per iteration. -/
def buildHeader (o : RangeOrders) : List String :=
  o.header.foldl (fun header location => header ++ [location]) ["Resource Type"]

/-- Lines 67-72: the cell appended for `(t, location)`. A read of a missing
outer key yields the nil map, whose reads all miss. -/
def cellFor (inventory : GoMap (GoMap Nat)) (t location : String) : String :=
  match GoMap.lookup ((GoMap.lookup inventory t).getD []) location with
  | some count => Nat.repr count
  | none => "-"

/-- Lines 65-73: `row := []string{t}` extended by one cell per location. -/
def buildRow (s : Aggregation) (o : RangeOrders) (t : String) : List String :=
  (o.row t).foldl (fun row location => row ++ [cellFor s.inventory t location]) [t]

/-- Lines 59, 64-75: one row appended per resource type. -/
def buildBody (s : Aggregation) (o : RangeOrders) : List (List String) :=
  o.types.foldl (fun body t => body ++ [buildRow s o t]) []

/-- Go's `a < b` on strings: lexicographic comparison of the contents. -/
def stringLess (a b : String) : Bool :=
  decide (a.data < b.data)

/-- The comparison handed to `sort.Slice` (line 78): `body[i][0] < body[j][0]`.
Every row starts with its resource type (`buildRow_eq`), so the index 0 is
always in range and the default of `getD` is never used on a body row. -/
def lessRow (a b : List String) : Bool :=
  stringLess (a.getD 0 "") (b.getD 0 "")

/-- Insertion of one element into a slice sorted by `less`. -/
def sort.insert {α : Type} (less : α → α → Bool) (x : α) : List α → List α
  | [] => [x]
  | y :: ys => if less x y then x :: y :: ys else y :: sort.insert less x ys

/-- The library call `sort.Slice(xs, less)`. The library promises a
permutation sorted by `less` and no stability; an insertion sort stands for
it, and `sort_Slice_unique` shows that on the rows of a table, whose first
columns are pairwise distinct, every sorting permutation is this one. -/
def sort.Slice {α : Type} (less : α → α → Bool) (xs : List α) : List α :=
  xs.foldr (sort.insert less) []

/-- The table handed to `OutputSelector`: `header` and the sorted `body`. -/
structure ReportTable where
  header : List String
  body : List (List String)
deriving DecidableEq, Repr

/-- Lines 58-79 of `RunbookCommand`: projection of the maps to the table. -/
def project (s : Aggregation) (o : RangeOrders) : ReportTable :=
  ⟨buildHeader o, sort.Slice lessRow (buildBody s o)⟩

/-- What `RunbookCommand` does to the outside world. -/
inductive Effect where
  | NextPage
  | Println (line : String)
  | OutputSelector (verbosity : Nat) (format : String) (header : List String)
      (body : List (List String)) (outputDirectory fileName label : String)
      (append : Bool) (scope : String)
deriving DecidableEq, Repr

/-- The loop `for pager.More() { ... }` (lines 32-39). The pager is the list
of the results its successive `NextPage` calls would give; `More()` holds while
the list is non-empty. Returns the effects and either the error that made the
function return or the accumulated `resources`. -/
def drainPager : List (Except String (List GenericResourceExpanded)) →
    List GenericResourceExpanded → List Effect × Except String (List GenericResourceExpanded)
  | [], resources => ([], Except.ok resources)
  | Except.error err :: _, _ => ([Effect.NextPage], Except.error err)
  | Except.ok page :: rest, resources =>
    let r := drainPager rest (resources ++ page)
    (Effect.NextPage :: r.1, r.2)

/-- Everything `RunbookCommand` receives from outside: the errors, if any, of
`azidentity.NewAzureCLICredential` and `armresources.NewClient`, the pager and
the orders of the map loops. Lines 14-15 fix `tenantID` and `subscriptionID`
to the empty string; what the library's pager delivers for them is not decided
here, the pager is an input. -/
structure Runtime where
  credentialErr : Option String
  clientErr : Option String
  pager : List (Except String (List GenericResourceExpanded))
  orders : RangeOrders

/-- The function `RunbookCommand` (lines 13-82), as the list of its effects. -/
def RunbookCommand (rt : Runtime) : List Effect :=
  match rt.credentialErr with
  | some err => [Effect.Println ("Failed to get credentials: " ++ err)]
  | none =>
    match rt.clientErr with
    | some err => [Effect.Println ("Failed to create client: " ++ err)]
    | none =>
      match drainPager rt.pager [] with
      | (fx, Except.error err) => fx ++ [Effect.Println ("Failed to get next page: " ++ err)]
      | (fx, Except.ok resources) =>
        let table := project (aggregate resources) rt.orders
        fx ++ [Effect.OutputSelector 2 "table" table.header table.body "." "runbooks.txt"
          "runbooks" true "sub-11111111-1111-11111-1111-1111111111111111"]

/-- The first column of a row, `row[0]`. -/
def firstColumn (row : List String) : String := row.getD 0 ""

/-- The normalized resource type of a record. -/
def typeOf (r : GenericResourceExpanded) : String := ptr.ToString r.Type_

/-- The normalized location of a record. -/
def locationOf (r : GenericResourceExpanded) : String := ptr.ToString r.Location

/-- The number of records of `resources` with the given normalized type and
location. -/
def countOf (resources : List GenericResourceExpanded) (t l : String) : Nat :=
  resources.countP (fun r => decide (ptr.ToString r.Type_ = t ∧ ptr.ToString r.Location = l))

/-- The cell text the table is meant to show for `(t, l)`: the placeholder
`"-"` when no record has this type and location, otherwise the decimal string
of the number of such records. -/
def cellSpec (resources : List GenericResourceExpanded) (t l : String) : String :=
  if countOf resources t l = 0 then "-" else Nat.repr (countOf resources t l)

/-- The stored cell `inventory[t][l]`, if there is one. -/
def cell (inventory : GoMap (GoMap Nat)) (t l : String) : Option Nat :=
  (GoMap.lookup inventory t).bind (fun inner => GoMap.lookup inner l)

/-- The sum of the values in one inner map. -/
def rowTotal (inner : GoMap Nat) : Nat := (inner.map Prod.snd).sum

/-- The sum of all the cell values stored in the matrix. -/
def matrixTotal (inventory : GoMap (GoMap Nat)) : Nat :=
  (inventory.map (fun p => rowTotal p.2)).sum

/-- No key is bound twice, neither in the matrix nor in any of its rows. -/
def WellFormed (inventory : GoMap (GoMap Nat)) : Prop :=
  (GoMap.keys inventory).Nodup ∧ ∀ p ∈ inventory, (GoMap.keys p.2).Nodup

/-- The records of the worked scenario: two virtual machines in `eastus`, one
storage account in `westus`. -/
def scenarioResources : List GenericResourceExpanded :=
  [⟨some "Microsoft.Compute/virtualMachines", some "eastus"⟩,
    ⟨some "Microsoft.Compute/virtualMachines", some "eastus"⟩,
    ⟨some "Microsoft.Storage/storageAccounts", some "westus"⟩]

/-- Orders for the scenario in which every row loop follows the header loop. -/
def scenarioOrders : RangeOrders :=
  ⟨["eastus", "westus"],
    ["Microsoft.Storage/storageAccounts", "Microsoft.Compute/virtualMachines"],
    fun _ => ["eastus", "westus"]⟩

/-- Sample input: two virtual machines in `eastus`, one storage account in
`westus`. -/
def sampleResources : List GenericResourceExpanded :=
  [⟨some "vm", some "eastus"⟩, ⟨some "vm", some "eastus"⟩, ⟨some "st", some "westus"⟩]

/-- Sample orders in which every row loop follows the header loop. -/
def sampleOrders : RangeOrders :=
  ⟨["eastus", "westus"], ["vm", "st"], fun _ => ["eastus", "westus"]⟩

/-- The sample input with its first and last records exchanged. -/
def sampleResourcesSwapped : List GenericResourceExpanded :=
  [⟨some "st", some "westus"⟩, ⟨some "vm", some "eastus"⟩, ⟨some "vm", some "eastus"⟩]

/-- Sample orders for the exchanged input, different from `sampleOrders`. -/
def sampleOrdersSwapped : RangeOrders :=
  ⟨["westus", "eastus"], ["st", "vm"], fun _ => ["westus", "eastus"]⟩

/-- Orders in which the row loop of `"vm"` runs opposite to the header loop. -/
def crossedOrders : RangeOrders :=
  ⟨["eastus", "westus"], ["vm", "st"],
    fun t => if t = "vm" then ["westus", "eastus"] else ["eastus", "westus"]⟩

/-! ## cli/azure.go -/

/-- The package-level flag variables (lines 11-18). -/
structure Flags where
  AzTenantID : String
  AzSubscription : String
  AzRGName : String
  AzOutputFormat : String
  AzOutputDirectory : String
  AzVerbosity : Int
  AzWrapTable : Bool
  AzMergedTable : Bool
deriving DecidableEq, Repr

/-- The module functions of package `azure` called by the commands. They live
outside the two files at hand and are inputs of the model. -/
inductive AzureFunc where
  | AzInventoryCommand
  | AzRBACCommand
  | AzVMsCommand
  | AzStorageCommand
  | AzRunbooksCommand
deriving DecidableEq, Repr

/-- One call of a module function with its actual arguments; `format` is
`none` for the functions whose signature has no output format. -/
structure Call where
  target : AzureFunc
  tenantID : String
  subscription : String
  format : Option String
  outputDirectory : String
  version : String
  verbosity : Int
  wrap : Bool
  merged : Bool
deriving DecidableEq, Repr

/-- What a command run does: it calls module functions and may call
`log.Fatal`. -/
inductive Event where
  | Invoked (c : Call)
  | LogFatal (err : String)
deriving DecidableEq, Repr

/-- The process running a command: the events so far and, once `os.Exit` was
called, the exit status. -/
structure Process where
  events : List Event
  exit : Option Nat
deriving DecidableEq, Repr

/-- A freshly started process. -/
def Process.start : Process := ⟨[], none⟩

/-- The body shared by the member closures,
`err := azure.F(...); if err != nil { log.Fatal(err) }`.
`azure c` is the error returned by the call `c`, `none` for nil. `log.Fatal`
prints the error and calls `os.Exit(1)`; a process that has exited runs
nothing more. Within one run every module function is called at most once, so
a result that depends only on the call loses no generality. -/
def runModule (azure : Call → Option String) (c : Call) (p : Process) : Process :=
  match p.exit with
  | some _ => p
  | none =>
    match azure c with
    | none => ⟨p.events ++ [Event.Invoked c], none⟩
    | some err => ⟨p.events ++ [Event.Invoked c, Event.LogFatal err], some 1⟩

/-- The call made by `AzInventoryCommand.Run` (line 56). -/
def inventoryCall (f : Flags) (version : String) : Call :=
  ⟨AzureFunc.AzInventoryCommand, f.AzTenantID, f.AzSubscription, none, f.AzOutputDirectory,
    version, f.AzVerbosity, f.AzWrapTable, f.AzMergedTable⟩

/-- The call made by `AzRBACCommand.Run` (line 74). -/
def rbacCall (f : Flags) (version : String) : Call :=
  ⟨AzureFunc.AzRBACCommand, f.AzTenantID, f.AzSubscription, some f.AzOutputFormat,
    f.AzOutputDirectory, version, f.AzVerbosity, f.AzWrapTable, f.AzMergedTable⟩

/-- The call made by `AzVMsCommand.Run` (line 91). -/
def vmsCall (f : Flags) (version : String) : Call :=
  ⟨AzureFunc.AzVMsCommand, f.AzTenantID, f.AzSubscription, some f.AzOutputFormat,
    f.AzOutputDirectory, version, f.AzVerbosity, f.AzWrapTable, f.AzMergedTable⟩

/-- The call made by `AzStorageCommand.Run` (line 109). -/
def storageCall (f : Flags) (version : String) : Call :=
  ⟨AzureFunc.AzStorageCommand, f.AzTenantID, f.AzSubscription, some f.AzOutputFormat,
    f.AzOutputDirectory, version, f.AzVerbosity, f.AzWrapTable, f.AzMergedTable⟩

/-- The call made by `AzRunbooksCommand.Run` (line 127). -/
def runbooksCall (f : Flags) (version : String) : Call :=
  ⟨AzureFunc.AzRunbooksCommand, f.AzTenantID, f.AzSubscription, none, f.AzOutputDirectory,
    version, f.AzVerbosity, f.AzWrapTable, f.AzMergedTable⟩

/-- The closure `AzInventoryCommand.Run` (lines 55-60). -/
def AzInventoryCommand.Run (azure : Call → Option String) (f : Flags) (version : String)
    (p : Process) : Process :=
  runModule azure (inventoryCall f version) p

/-- The closure `AzRBACCommand.Run` (lines 73-78). -/
def AzRBACCommand.Run (azure : Call → Option String) (f : Flags) (version : String)
    (p : Process) : Process :=
  runModule azure (rbacCall f version) p

/-- The closure `AzVMsCommand.Run` (lines 90-95). -/
def AzVMsCommand.Run (azure : Call → Option String) (f : Flags) (version : String)
    (p : Process) : Process :=
  runModule azure (vmsCall f version) p

/-- The closure `AzStorageCommand.Run` (lines 108-113). -/
def AzStorageCommand.Run (azure : Call → Option String) (f : Flags) (version : String)
    (p : Process) : Process :=
  runModule azure (storageCall f version) p

/-- The closure `AzRunbooksCommand.Run` (lines 126-131). -/
def AzRunbooksCommand.Run (azure : Call → Option String) (f : Flags) (version : String)
    (p : Process) : Process :=
  runModule azure (runbooksCall f version) p

/-- The closure `AzAllVulnChecksCommand.Run` (lines 138-141). -/
def AzAllVulnChecksCommand.Run (azure : Call → Option String) (f : Flags) (version : String)
    (p : Process) : Process :=
  AzRunbooksCommand.Run azure f version p

/-- The closure `AzAllEnumChecksCommand.Run` (lines 148-154): the four member
closures one after the other. -/
def AzAllEnumChecksCommand.Run (azure : Call → Option String) (f : Flags) (version : String)
    (p : Process) : Process :=
  let p₁ := AzInventoryCommand.Run azure f version p
  let p₂ := AzRBACCommand.Run azure f version p₁
  let p₃ := AzVMsCommand.Run azure f version p₂
  AzStorageCommand.Run azure f version p₃

/-- The member closures for the given calls, run one after the other. -/
def runAll (azure : Call → Option String) (calls : List Call) (p : Process) : Process :=
  calls.foldl (fun q c => runModule azure c q) p

/-- The calls of the members of `all-enumchecks`, in the order written. -/
def enumChecksCalls (f : Flags) (version : String) : List Call :=
  [inventoryCall f version, rbacCall f version, vmsCall f version, storageCall f version]

/-- Whether the module function `m` was called during the run. -/
def Process.executed (p : Process) (m : AzureFunc) : Bool :=
  p.events.any (fun e =>
    match e with
    | Event.Invoked c => decide (c.target = m)
    | Event.LogFatal _ => false)

/-- Sample flag values. -/
def sampleFlags : Flags := ⟨"tenant", "subscription", "", "all", "out", 2, false, false⟩

/-- Sample module results: `azure.AzRBACCommand` returns an error, the other
module functions return nil. -/
def denyRBAC (c : Call) : Option String :=
  if c.target = AzureFunc.AzRBACCommand then some "denied" else none

/-- Sample module results: every module function returns nil. -/
def allSucceed (_ : Call) : Option String := none

/-! ## Lemmas on Go maps -/

theorem GoMap.lookup_store {V : Type} (m : GoMap V) (k k' : String) (v : V) :
    GoMap.lookup (GoMap.store m k v) k' = if k = k' then some v else GoMap.lookup m k' := by
  induction m with
  | nil => simp [GoMap.store, GoMap.lookup]
  | cons hd tl ih =>
    obtain ⟨a, b⟩ := hd
    by_cases h : a = k
    · subst h
      by_cases h' : a = k' <;> simp [GoMap.store, GoMap.lookup, h']
    · by_cases h' : a = k'
      · subst h'
        have : ¬ k = a := fun e => h e.symm
        simp [GoMap.store, GoMap.lookup, h, this]
      · simp [GoMap.store, GoMap.lookup, h, h', ih]

theorem GoMap.mem_keys_iff {V : Type} (m : GoMap V) (k : String) :
    k ∈ GoMap.keys m ↔ ∃ v, GoMap.lookup m k = some v := by
  induction m with
  | nil => simp [GoMap.keys, GoMap.lookup]
  | cons hd tl ih =>
    obtain ⟨a, b⟩ := hd
    by_cases h : a = k
    · subst h
      simp [GoMap.keys, GoMap.lookup]
    · have h2 : ¬ k = a := fun e => h e.symm
      have ih' : k ∈ List.map Prod.fst tl ↔ ∃ v, GoMap.lookup tl k = some v := ih
      simp only [GoMap.keys, List.map_cons, List.mem_cons, h2, false_or, GoMap.lookup, h,
        if_false]
      exact ih'

theorem GoMap.keys_store {V : Type} (m : GoMap V) (k : String) (v : V) :
    GoMap.keys (GoMap.store m k v) = if k ∈ GoMap.keys m then GoMap.keys m else GoMap.keys m ++ [k] := by
  induction m with
  | nil => simp [GoMap.store, GoMap.keys]
  | cons hd tl ih =>
    obtain ⟨a, b⟩ := hd
    by_cases h : a = k
    · subst h
      simp [GoMap.store, GoMap.keys]
    · have h2 : ¬ k = a := fun e => h e.symm
      have ih' : List.map Prod.fst (GoMap.store tl k v) =
          if k ∈ List.map Prod.fst tl then List.map Prod.fst tl else List.map Prod.fst tl ++ [k] := ih
      simp only [GoMap.store, h, if_false, GoMap.keys, List.map_cons, List.mem_cons, h2,
        false_or, ih']
      split <;> simp

theorem GoMap.nodup_keys_store {V : Type} (m : GoMap V) (k : String) (v : V)
    (h : (GoMap.keys m).Nodup) : (GoMap.keys (GoMap.store m k v)).Nodup := by
  rw [GoMap.keys_store]
  split
  · exact h
  · rename_i hk
    exact List.Nodup.append h (List.nodup_singleton k) (by
      intro a ha hb
      simp only [List.mem_singleton] at hb
      subst hb
      exact hk ha)

theorem GoMap.mem_keys_store {V : Type} (m : GoMap V) (k k' : String) (v : V) :
    k' ∈ GoMap.keys (GoMap.store m k v) ↔ k' = k ∨ k' ∈ GoMap.keys m := by
  rw [GoMap.keys_store]
  split
  · rename_i hk
    constructor
    · intro h; exact Or.inr h
    · rintro (h | h)
      · subst h; exact hk
      · exact h
  · simp only [List.mem_append, List.mem_singleton]
    tauto

theorem rowTotal_store (inner : GoMap Nat) (k : String) (v : Nat) :
    rowTotal (GoMap.store inner k v) + (GoMap.lookup inner k).getD 0 = rowTotal inner + v := by
  induction inner with
  | nil => simp [GoMap.store, GoMap.lookup, rowTotal]
  | cons hd tl ih =>
    obtain ⟨a, b⟩ := hd
    by_cases h : a = k
    · subst h
      simp [GoMap.store, GoMap.lookup, rowTotal]
      omega
    · simp only [rowTotal] at ih
      simp only [GoMap.store, h, if_false, GoMap.lookup, rowTotal, List.map_cons, List.sum_cons]
      omega

theorem matrixTotal_store (inventory : GoMap (GoMap Nat)) (t : String) (inner : GoMap Nat) :
    matrixTotal (GoMap.store inventory t inner) + rowTotal ((GoMap.lookup inventory t).getD []) =
      matrixTotal inventory + rowTotal inner := by
  induction inventory with
  | nil => simp [GoMap.store, GoMap.lookup, matrixTotal, rowTotal]
  | cons hd tl ih =>
    obtain ⟨a, b⟩ := hd
    by_cases h : a = t
    · subst h
      simp [GoMap.store, GoMap.lookup, matrixTotal]
      omega
    · simp only [matrixTotal] at ih
      simp only [GoMap.store, h, if_false, GoMap.lookup, matrixTotal, List.map_cons,
        List.sum_cons]
      omega

/-! ## The aggregation loop -/

theorem aggregate_nil : aggregate [] = Aggregation.init := rfl

theorem aggregate_snoc (resources : List GenericResourceExpanded) (r : GenericResourceExpanded) :
    aggregate (resources ++ [r]) = aggregateStep (aggregate resources) r := by
  simp [aggregate, List.foldl_append]

theorem cell_aggregateStep (s : Aggregation) (r : GenericResourceExpanded) (t l : String) :
    cell (aggregateStep s r).inventory t l =
      if ptr.ToString r.Type_ = t ∧ ptr.ToString r.Location = l then
        some ((cell s.inventory t l).getD 0 + 1)
      else cell s.inventory t l := by
  unfold aggregateStep cell
  cases hl : GoMap.lookup s.inventory (ptr.ToString r.Type_) with
  | none =>
    by_cases ht : ptr.ToString r.Type_ = t
    · subst ht
      by_cases hloc : ptr.ToString r.Location = l
      · simp [hl, hloc, GoMap.lookup, GoMap.lookup_store]
      · simp [hl, hloc, GoMap.lookup, GoMap.lookup_store]
    · simp [hl, ht, GoMap.lookup_store]
  | some inner =>
    by_cases ht : ptr.ToString r.Type_ = t
    · subst ht
      by_cases hloc : ptr.ToString r.Location = l
      · simp [hl, hloc, GoMap.lookup_store]
      · simp [hl, hloc, GoMap.lookup_store]
    · simp [hl, ht, GoMap.lookup_store]

theorem countOf_snoc (resources : List GenericResourceExpanded) (r : GenericResourceExpanded)
    (t l : String) :
    countOf (resources ++ [r]) t l =
      countOf resources t l +
        if ptr.ToString r.Type_ = t ∧ ptr.ToString r.Location = l then 1 else 0 := by
  simp [countOf, List.countP_append, List.countP_cons]

theorem cell_aggregate (resources : List GenericResourceExpanded) (t l : String) :
    cell (aggregate resources).inventory t l =
      if countOf resources t l = 0 then none else some (countOf resources t l) := by
  induction resources using List.reverseRecOn with
  | nil => simp [aggregate_nil, Aggregation.init, cell, GoMap.lookup, countOf]
  | append_singleton rs r ih =>
    rw [aggregate_snoc, cell_aggregateStep, ih, countOf_snoc]
    by_cases h : ptr.ToString r.Type_ = t ∧ ptr.ToString r.Location = l
    · by_cases h0 : countOf rs t l = 0 <;> simp [h, h0]
    · simp [h]

theorem matrixTotal_aggregateStep (s : Aggregation) (r : GenericResourceExpanded) :
    matrixTotal (aggregateStep s r).inventory = matrixTotal s.inventory + 1 := by
  unfold aggregateStep
  cases hl : GoMap.lookup s.inventory (ptr.ToString r.Type_) with
  | none =>
    have h1 := matrixTotal_store s.inventory (ptr.ToString r.Type_) []
    have h2 := matrixTotal_store (GoMap.store s.inventory (ptr.ToString r.Type_) [])
      (ptr.ToString r.Type_) (GoMap.store [] (ptr.ToString r.Location) (0 + 1))
    have h3 := rowTotal_store [] (ptr.ToString r.Location) (0 + 1)
    simp only [hl, GoMap.lookup_store, if_true, Option.getD_some, Option.getD_none] at h1 h2 ⊢
    simp only [GoMap.lookup, Option.getD_none] at h3 ⊢
    have h4 : rowTotal [] = 0 := rfl
    omega
  | some inner =>
    have h1 := matrixTotal_store s.inventory (ptr.ToString r.Type_)
      (GoMap.store inner (ptr.ToString r.Location)
        ((GoMap.lookup inner (ptr.ToString r.Location)).getD 0 + 1))
    have h3 := rowTotal_store inner (ptr.ToString r.Location)
      ((GoMap.lookup inner (ptr.ToString r.Location)).getD 0 + 1)
    simp only [hl, Option.getD_some] at h1 ⊢
    omega

theorem matrixTotal_aggregate (resources : List GenericResourceExpanded) :
    matrixTotal (aggregate resources).inventory = resources.length := by
  induction resources using List.reverseRecOn with
  | nil => rfl
  | append_singleton rs r ih =>
    rw [aggregate_snoc, matrixTotal_aggregateStep, ih]
    simp

theorem mem_resourceTypes (resources : List GenericResourceExpanded) (t : String) :
    t ∈ GoMap.keys (aggregate resources).resourceTypes ↔ t ∈ resources.map typeOf := by
  induction resources using List.reverseRecOn with
  | nil => simp [aggregate_nil, Aggregation.init, GoMap.keys]
  | append_singleton rs r ih =>
    rw [aggregate_snoc]
    simp only [aggregateStep, GoMap.mem_keys_store, ih, List.map_append, List.map_cons,
      List.map_nil, List.mem_append, List.mem_singleton, typeOf]
    tauto

theorem mem_resourceLocations (resources : List GenericResourceExpanded) (l : String) :
    l ∈ GoMap.keys (aggregate resources).resourceLocations ↔ l ∈ resources.map locationOf := by
  induction resources using List.reverseRecOn with
  | nil => simp [aggregate_nil, Aggregation.init, GoMap.keys]
  | append_singleton rs r ih =>
    rw [aggregate_snoc]
    simp only [aggregateStep, GoMap.mem_keys_store, ih, List.map_append, List.map_cons,
      List.map_nil, List.mem_append, List.mem_singleton, locationOf]
    tauto

theorem nodup_resourceTypes (resources : List GenericResourceExpanded) :
    (GoMap.keys (aggregate resources).resourceTypes).Nodup := by
  induction resources using List.reverseRecOn with
  | nil => simp [aggregate_nil, Aggregation.init, GoMap.keys]
  | append_singleton rs r ih =>
    rw [aggregate_snoc]
    exact GoMap.nodup_keys_store _ _ _ ih

theorem nodup_resourceLocations (resources : List GenericResourceExpanded) :
    (GoMap.keys (aggregate resources).resourceLocations).Nodup := by
  induction resources using List.reverseRecOn with
  | nil => simp [aggregate_nil, Aggregation.init, GoMap.keys]
  | append_singleton rs r ih =>
    rw [aggregate_snoc]
    exact GoMap.nodup_keys_store _ _ _ ih

theorem resourceTypes_perm_dedup (resources : List GenericResourceExpanded) :
    (GoMap.keys (aggregate resources).resourceTypes).Perm (resources.map typeOf).dedup := by
  rw [List.perm_ext_iff_of_nodup (nodup_resourceTypes resources) (List.nodup_dedup _)]
  intro a
  rw [mem_resourceTypes, List.mem_dedup]

theorem resourceLocations_perm_dedup (resources : List GenericResourceExpanded) :
    (GoMap.keys (aggregate resources).resourceLocations).Perm
      (resources.map locationOf).dedup := by
  rw [List.perm_ext_iff_of_nodup (nodup_resourceLocations resources) (List.nodup_dedup _)]
  intro a
  rw [mem_resourceLocations, List.mem_dedup]

theorem mem_inventory_keys (resources : List GenericResourceExpanded) (t : String) :
    t ∈ GoMap.keys (aggregate resources).inventory ↔ t ∈ resources.map typeOf := by
  induction resources using List.reverseRecOn with
  | nil => simp [aggregate_nil, Aggregation.init, GoMap.keys]
  | append_singleton rs r ih =>
    rw [aggregate_snoc]
    have key : t ∈ GoMap.keys (aggregateStep (aggregate rs) r).inventory ↔
        t = ptr.ToString r.Type_ ∨ t ∈ GoMap.keys (aggregate rs).inventory := by
      unfold aggregateStep
      cases hl : GoMap.lookup (aggregate rs).inventory (ptr.ToString r.Type_) with
      | none =>
        simp only [hl, GoMap.mem_keys_store]
        tauto
      | some inner =>
        simp only [hl, GoMap.mem_keys_store]
    rw [key, ih]
    simp only [List.map_append, List.map_cons, List.map_nil, List.mem_append,
      List.mem_singleton, typeOf]
    tauto

/-! ## The projection loops -/

theorem foldl_snoc_eq_map {α β : Type} (f : α → β) (xs : List α) (init : List β) :
    xs.foldl (fun acc x => acc ++ [f x]) init = init ++ xs.map f := by
  induction xs generalizing init with
  | nil => simp
  | cons x xs ih => simp [ih]

theorem buildHeader_eq (o : RangeOrders) : buildHeader o = "Resource Type" :: o.header := by
  unfold buildHeader
  rw [foldl_snoc_eq_map (fun location => location)]
  simp

theorem buildRow_eq (s : Aggregation) (o : RangeOrders) (t : String) :
    buildRow s o t = t :: (o.row t).map (cellFor s.inventory t) := by
  unfold buildRow
  rw [foldl_snoc_eq_map (cellFor s.inventory t)]
  simp

theorem buildBody_eq (s : Aggregation) (o : RangeOrders) :
    buildBody s o = o.types.map (buildRow s o) := by
  unfold buildBody
  rw [foldl_snoc_eq_map (buildRow s o)]
  simp

/-! ## Sorting -/

theorem stringLess_iff (a b : String) : stringLess a b = true ↔ a < b := by
  unfold stringLess
  rw [decide_eq_true_iff, String.lt_iff_toList_lt]
  rfl

theorem stringLess_eq_false_iff (a b : String) : stringLess a b = false ↔ b ≤ a := by
  rw [← not_lt, ← stringLess_iff]
  simp

theorem sort.insert_perm {α : Type} (less : α → α → Bool) (x : α) (l : List α) :
    (sort.insert less x l).Perm (x :: l) := by
  induction l with
  | nil => exact List.Perm.refl _
  | cons y ys ih =>
    unfold sort.insert
    split
    · exact List.Perm.refl _
    · exact (List.Perm.cons y ih).trans (List.Perm.swap x y ys)

theorem sort.Slice_perm {α : Type} (less : α → α → Bool) (l : List α) :
    (sort.Slice less l).Perm l := by
  induction l with
  | nil => exact List.Perm.refl _
  | cons x xs ih =>
    have h : sort.Slice less (x :: xs) = sort.insert less x (sort.Slice less xs) := rfl
    rw [h]
    exact (sort.insert_perm less x _).trans (List.Perm.cons x ih)

theorem sort.insert_sorted {α : Type} (key : α → String) (x : α) (l : List α)
    (h : l.Pairwise (fun a b => key a ≤ key b)) :
    (sort.insert (fun a b => stringLess (key a) (key b)) x l).Pairwise
      (fun a b => key a ≤ key b) := by
  induction l with
  | nil => simp [sort.insert]
  | cons y ys ih =>
    unfold sort.insert
    rw [List.pairwise_cons] at h
    by_cases hxy : stringLess (key x) (key y) = true
    · simp only [hxy, if_true]
      have hlt : key x < key y := (stringLess_iff _ _).1 hxy
      refine List.pairwise_cons.2 ⟨?_, List.pairwise_cons.2 h⟩
      intro z hz
      rcases List.mem_cons.1 hz with rfl | hz
      · exact le_of_lt hlt
      · exact le_trans (le_of_lt hlt) (h.1 z hz)
    · simp only [hxy]
      have hle : key y ≤ key x := by
        rw [← not_lt, ← stringLess_iff]
        exact hxy
      refine List.pairwise_cons.2 ⟨?_, ih h.2⟩
      intro z hz
      have hz' := (sort.insert_perm _ x ys).subset hz
      rcases List.mem_cons.1 hz' with rfl | hz'
      · exact hle
      · exact h.1 z hz'

theorem sort.Slice_sorted {α : Type} (key : α → String) (l : List α) :
    (sort.Slice (fun a b => stringLess (key a) (key b)) l).Pairwise
      (fun a b => key a ≤ key b) := by
  induction l with
  | nil => exact List.Pairwise.nil
  | cons x xs ih => exact sort.insert_sorted key x _ ih

theorem pairwise_lt_of_le_of_nodup {α : Type} (key : α → String) (l : List α)
    (hs : l.Pairwise (fun a b => key a ≤ key b)) (hn : (l.map key).Nodup) :
    l.Pairwise (fun a b => key a < key b) := by
  have hne : l.Pairwise (fun a b => key a ≠ key b) := by
    rw [List.Nodup, List.pairwise_map] at hn
    exact hn
  exact (hs.and hne).imp (fun h => lt_of_le_of_ne h.1 h.2)

theorem sort.Slice_strict {α : Type} (key : α → String) (l : List α)
    (hn : (l.map key).Nodup) :
    (sort.Slice (fun a b => stringLess (key a) (key b)) l).Pairwise
      (fun a b => key a < key b) := by
  apply pairwise_lt_of_le_of_nodup key _ (sort.Slice_sorted key l)
  exact ((sort.Slice_perm _ l).map key).nodup_iff.2 hn

theorem eq_of_perm_of_strict {α : Type} (key : α → String) (l₁ l₂ : List α)
    (hp : l₁.Perm l₂) (h₁ : l₁.Pairwise (fun a b => key a < key b))
    (h₂ : l₂.Pairwise (fun a b => key a < key b)) : l₁ = l₂ := by
  haveI : IsAntisymm α (fun a b => key a < key b) :=
    ⟨fun a b hab hba => absurd hab (lt_asymm hba)⟩
  exact List.eq_of_perm_of_sorted hp h₁ h₂

/-- Any permutation of a slice with pairwise distinct keys that is sorted in
the sense promised by `sort.Slice` (no later element is less than an earlier
one) is the result computed by the model of `sort.Slice`. -/
theorem sort_Slice_unique {α : Type} (key : α → String) (l out : List α)
    (hn : (l.map key).Nodup) (hp : out.Perm l)
    (hs : out.Pairwise (fun a b => stringLess (key b) (key a) = false)) :
    out = sort.Slice (fun a b => stringLess (key a) (key b)) l := by
  apply eq_of_perm_of_strict key
  · exact hp.trans (sort.Slice_perm _ l).symm
  · apply pairwise_lt_of_le_of_nodup key
    · exact hs.imp (fun h => (stringLess_eq_false_iff _ _).1 h)
    · exact (hp.map key).nodup_iff.2 hn
  · exact sort.Slice_strict key l hn

/-! ## The table -/

theorem lessRow_eq : lessRow = fun a b => stringLess (firstColumn a) (firstColumn b) := rfl

theorem firstColumn_buildRow (s : Aggregation) (o : RangeOrders) (t : String) :
    firstColumn (buildRow s o t) = t := by
  rw [buildRow_eq]
  rfl

theorem map_firstColumn_buildBody (s : Aggregation) (o : RangeOrders) :
    (buildBody s o).map firstColumn = o.types := by
  rw [buildBody_eq, List.map_map]
  have h : firstColumn ∘ buildRow s o = id := by
    funext t
    exact firstColumn_buildRow s o t
  rw [h, List.map_id]

theorem body_perm (s : Aggregation) (o : RangeOrders) :
    (project s o).body.Perm (o.types.map (buildRow s o)) := by
  unfold project
  rw [buildBody_eq]
  exact sort.Slice_perm _ _

theorem body_firstColumn_perm (s : Aggregation) (o : RangeOrders) :
    ((project s o).body.map firstColumn).Perm o.types := by
  have h := (sort.Slice_perm lessRow (buildBody s o)).map firstColumn
  rw [map_firstColumn_buildBody] at h
  exact h

theorem body_strict (s : Aggregation) (o : RangeOrders) (hn : o.types.Nodup) :
    (project s o).body.Pairwise (fun a b => firstColumn a < firstColumn b) := by
  unfold project
  rw [lessRow_eq]
  apply sort.Slice_strict firstColumn
  rw [map_firstColumn_buildBody]
  exact hn

theorem Legal.types_nodup {resources : List GenericResourceExpanded} {o : RangeOrders}
    (h : o.Legal (aggregate resources)) : o.types.Nodup :=
  h.2.1.nodup_iff.2 (nodup_resourceTypes resources)

theorem body_firstColumn_sorted (s : Aggregation) (o : RangeOrders) (hn : o.types.Nodup) :
    ((project s o).body.map firstColumn).Pairwise (fun a b => a < b) := by
  rw [List.pairwise_map]
  exact body_strict s o hn

/-- On a table whose rows come from pairwise distinct resource types, every
permutation of the built body in which no later row is less than an earlier
one is the body of the model: the choice of the sorting algorithm is
immaterial. -/
theorem body_unique (s : Aggregation) (o : RangeOrders) (hn : o.types.Nodup)
    (out : List (List String)) (hp : out.Perm (buildBody s o))
    (hs : out.Pairwise (fun a b => lessRow b a = false)) :
    out = (project s o).body := by
  unfold project
  rw [lessRow_eq]
  apply sort_Slice_unique firstColumn _ _ _ hp hs
  rw [map_firstColumn_buildBody]
  exact hn

theorem cellFor_aggregate (resources : List GenericResourceExpanded) (t l : String) :
    cellFor (aggregate resources).inventory t l =
      if countOf resources t l = 0 then "-" else Nat.repr (countOf resources t l) := by
  have h := cell_aggregate resources t l
  unfold cell at h
  unfold cellFor
  cases hl : GoMap.lookup (aggregate resources).inventory t with
  | none =>
    rw [hl] at h
    simp only [Option.none_bind] at h
    by_cases h0 : countOf resources t l = 0
    · simp [h0, GoMap.lookup]
    · simp [h0] at h
  | some inner =>
    rw [hl] at h
    simp only [Option.some_bind] at h
    simp only [Option.getD_some, h]
    by_cases h0 : countOf resources t l = 0 <;> simp [h0]

/-! ## Well-formedness of the matrix -/

theorem GoMap.mem_store {V : Type} (m : GoMap V) (k : String) (v : V) (p : String × V)
    (h : p ∈ GoMap.store m k v) : p = (k, v) ∨ p ∈ m := by
  induction m with
  | nil =>
    simp only [GoMap.store, List.mem_singleton] at h
    exact Or.inl h
  | cons hd tl ih =>
    obtain ⟨a, b⟩ := hd
    by_cases hk : a = k
    · simp only [GoMap.store, hk, if_true, List.mem_cons] at h
      rcases h with h | h
      · exact Or.inl h
      · exact Or.inr (List.mem_cons_of_mem _ h)
    · simp only [GoMap.store, hk, if_false, List.mem_cons] at h
      rcases h with h | h
      · exact Or.inr (by rw [h]; exact List.mem_cons_self _ _)
      · rcases ih h with h | h
        · exact Or.inl h
        · exact Or.inr (List.mem_cons_of_mem _ h)

theorem GoMap.mem_of_lookup {V : Type} (m : GoMap V) (k : String) (v : V)
    (h : GoMap.lookup m k = some v) : (k, v) ∈ m := by
  induction m with
  | nil => simp [GoMap.lookup] at h
  | cons hd tl ih =>
    obtain ⟨a, b⟩ := hd
    by_cases hk : a = k
    · simp only [GoMap.lookup, hk, if_true, Option.some.injEq] at h
      rw [hk, h]
      exact List.mem_cons_self _ _
    · simp only [GoMap.lookup, hk, if_false] at h
      exact List.mem_cons_of_mem _ (ih h)

theorem wellFormed_aggregateStep (s : Aggregation) (r : GenericResourceExpanded)
    (h : WellFormed s.inventory) : WellFormed (aggregateStep s r).inventory := by
  unfold aggregateStep
  cases hl : GoMap.lookup s.inventory (ptr.ToString r.Type_) with
  | none =>
    simp only [hl, GoMap.lookup_store, if_true, Option.getD_some]
    refine ⟨GoMap.nodup_keys_store _ _ _ (GoMap.nodup_keys_store _ _ _ h.1), ?_⟩
    intro p hp
    rcases GoMap.mem_store _ _ _ _ hp with hp | hp
    · rw [hp]
      exact GoMap.nodup_keys_store _ _ _ (by simp [GoMap.keys])
    · rcases GoMap.mem_store _ _ _ _ hp with hp | hp
      · rw [hp]
        simp [GoMap.keys]
      · exact h.2 p hp
  | some inner =>
    simp only [hl, Option.getD_some]
    refine ⟨GoMap.nodup_keys_store _ _ _ h.1, ?_⟩
    intro p hp
    rcases GoMap.mem_store _ _ _ _ hp with hp | hp
    · rw [hp]
      exact GoMap.nodup_keys_store _ _ _ (h.2 _ (GoMap.mem_of_lookup _ _ _ hl))
    · exact h.2 p hp

theorem wellFormed_aggregate (resources : List GenericResourceExpanded) :
    WellFormed (aggregate resources).inventory := by
  induction resources using List.reverseRecOn with
  | nil => exact ⟨List.nodup_nil, fun p hp => absurd hp (List.not_mem_nil p)⟩
  | append_singleton rs r ih =>
    rw [aggregate_snoc]
    exact wellFormed_aggregateStep _ r ih

theorem lookup_resourceTypes (resources : List GenericResourceExpanded) (t : String) :
    GoMap.lookup (aggregate resources).resourceTypes t =
      if t ∈ resources.map typeOf then some true else none := by
  induction resources using List.reverseRecOn with
  | nil => simp [aggregate_nil, Aggregation.init, GoMap.lookup]
  | append_singleton rs r ih =>
    rw [aggregate_snoc]
    simp only [aggregateStep, GoMap.lookup_store, ih, List.map_append, List.map_cons,
      List.map_nil, List.mem_append, List.mem_singleton, typeOf]
    by_cases h1 : ptr.ToString r.Type_ = t
    · simp [h1]
    · have h2 : ¬ t = ptr.ToString r.Type_ := fun e => h1 e.symm
      simp [h1, h2]

theorem lookup_resourceLocations (resources : List GenericResourceExpanded) (l : String) :
    GoMap.lookup (aggregate resources).resourceLocations l =
      if l ∈ resources.map locationOf then some true else none := by
  induction resources using List.reverseRecOn with
  | nil => simp [aggregate_nil, Aggregation.init, GoMap.lookup]
  | append_singleton rs r ih =>
    rw [aggregate_snoc]
    simp only [aggregateStep, GoMap.lookup_store, ih, List.map_append, List.map_cons,
      List.map_nil, List.mem_append, List.mem_singleton, locationOf]
    by_cases h1 : ptr.ToString r.Location = l
    · simp [h1]
    · have h2 : ¬ l = ptr.ToString r.Location := fun e => h1 e.symm
      simp [h1, h2]

/-- The worked scenario: the matrix, and the table for orders in which the row
loops follow the header loop. -/
theorem scenario_table :
    (aggregate scenarioResources).inventory =
      [("Microsoft.Compute/virtualMachines", [("eastus", 2)]),
        ("Microsoft.Storage/storageAccounts", [("westus", 1)])] ∧
    project (aggregate scenarioResources) scenarioOrders =
      ⟨["Resource Type", "eastus", "westus"],
        [["Microsoft.Compute/virtualMachines", "2", "-"],
          ["Microsoft.Storage/storageAccounts", "-", "1"]]⟩ := by
  decide

/-- A record with nil type and nil location is counted under the empty
strings. -/
theorem aggregate_absent_fields :
    aggregate [⟨none, none⟩, ⟨some "vm", none⟩, ⟨none, none⟩] =
      ⟨[("", [("", 2)]), ("vm", [("", 1)])], [("", true), ("vm", true)], [("", true)]⟩ := by
  decide

theorem sampleOrders_legal : sampleOrders.Legal (aggregate sampleResources) := by
  unfold RangeOrders.Legal
  decide

theorem sampleOrdersSwapped_legal :
    sampleOrdersSwapped.Legal (aggregate sampleResourcesSwapped) := by
  unfold RangeOrders.Legal
  decide

theorem crossedOrders_legal : crossedOrders.Legal (aggregate sampleResources) := by
  unfold RangeOrders.Legal
  decide

/-! ## The claims on the aggregation loop -/

/-- C2 (set completeness, exact counts). For every record sequence and every
pair `(t, l)` of strings, the matrix holds a cell `inventory[t][l]` exactly when
some record has normalized type `t` and normalized location `l`; a cell that
exists holds the number of such records, which is at least 1, so no zero count
is ever stored. -/
theorem C2_cell_iff_observed (resources : List GenericResourceExpanded) (t l : String) :
    ((∃ v, cell (aggregate resources).inventory t l = some v) ↔
      ∃ r ∈ resources, typeOf r = t ∧ locationOf r = l) ∧
    ∀ v, cell (aggregate resources).inventory t l = some v →
      v = countOf resources t l ∧ 1 ≤ v := by
  have hc := cell_aggregate resources t l
  have hz : countOf resources t l = 0 ↔ ¬ ∃ r ∈ resources, typeOf r = t ∧ locationOf r = l := by
    unfold countOf typeOf locationOf
    rw [List.countP_eq_zero]
    simp
  constructor
  · by_cases h0 : countOf resources t l = 0
    · rw [hc, if_pos h0]
      constructor
      · rintro ⟨v, hv⟩
        exact nomatch hv
      · intro h
        exact absurd h (hz.1 h0)
    · rw [hc, if_neg h0]
      constructor
      · intro _
        by_contra hn
        exact h0 (hz.2 hn)
      · intro _
        exact ⟨_, rfl⟩
  · intro v hv
    rw [hc] at hv
    by_cases h0 : countOf resources t l = 0
    · simp [h0] at hv
    · simp only [h0, if_false, Option.some.injEq] at hv
      omega

/-- C3 (count conservation). For every record sequence, records with absent
type or location included, the values of all cells stored in the matrix sum to
the number of records; no key is bound twice, so every cell is counted once. -/
theorem C3_count_conservation (resources : List GenericResourceExpanded) :
    matrixTotal (aggregate resources).inventory = resources.length ∧
    WellFormed (aggregate resources).inventory :=
  ⟨matrixTotal_aggregate resources, wellFormed_aggregate resources⟩

/-! ## The claims on the table -/

/-- C5 (row ordering). For every record sequence and all legal orders of the
map loops, the body rows are strictly increasing by their first column: for
all row indices `i < j`, `body[i][0] < body[j][0]`; in particular no two rows
have the same first column. -/
theorem C5_rows_strictly_increasing (resources : List GenericResourceExpanded)
    (o : RangeOrders) (h : o.Legal (aggregate resources)) :
    (∀ (i j : Nat) (hi : i < (project (aggregate resources) o).body.length)
        (hj : j < (project (aggregate resources) o).body.length), i < j →
      firstColumn ((project (aggregate resources) o).body.get ⟨i, hi⟩) <
        firstColumn ((project (aggregate resources) o).body.get ⟨j, hj⟩)) ∧
    ((project (aggregate resources) o).body.map firstColumn).Nodup := by
  have hs := body_strict (aggregate resources) o (Legal.types_nodup h)
  constructor
  · intro i j hi hj hij
    exact List.pairwise_iff_get.1 hs ⟨i, hi⟩ ⟨j, hj⟩ hij
  · exact (body_firstColumn_perm (aggregate resources) o).nodup_iff.2 (Legal.types_nodup h)

/-- Witness of C5 on the sample input. -/
theorem C5_rows_strictly_increasing_witness :
    sampleOrders.Legal (aggregate sampleResources) ∧
    ((project (aggregate sampleResources) sampleOrders).body.map firstColumn).Nodup :=
  ⟨sampleOrders_legal,
    (C5_rows_strictly_increasing sampleResources sampleOrders sampleOrders_legal).2⟩

/-- C6 (table shape). For every record sequence and all legal orders of the
map loops, the body has as many rows as there are distinct normalized resource
types, the header has one entry more than there are distinct normalized
locations, and every body row is as long as the header. -/
theorem C6_table_shape (resources : List GenericResourceExpanded) (o : RangeOrders)
    (h : o.Legal (aggregate resources)) :
    (project (aggregate resources) o).body.length = (resources.map typeOf).dedup.length ∧
    (project (aggregate resources) o).header.length =
      1 + (resources.map locationOf).dedup.length ∧
    ∀ row ∈ (project (aggregate resources) o).body,
      row.length = (project (aggregate resources) o).header.length := by
  have hloc : o.header.length = (resources.map locationOf).dedup.length :=
    (h.1.trans (resourceLocations_perm_dedup resources)).length_eq
  have hhead : (project (aggregate resources) o).header.length = 1 + o.header.length := by
    simp only [project, buildHeader_eq, List.length_cons]
    omega
  refine ⟨?_, ?_, ?_⟩
  · rw [(body_perm (aggregate resources) o).length_eq, List.length_map]
    exact (h.2.1.trans (resourceTypes_perm_dedup resources)).length_eq
  · rw [hhead, hloc]
  · intro row hrow
    have hmem := (body_perm (aggregate resources) o).subset hrow
    obtain ⟨t, ht, rfl⟩ := List.mem_map.1 hmem
    rw [hhead, buildRow_eq, List.length_cons, List.length_map, (h.2.2 t ht).length_eq,
      h.1.length_eq]
    omega

/-- Witness of C6 on the sample input. -/
theorem C6_table_shape_witness :
    sampleOrders.Legal (aggregate sampleResources) ∧
    (project (aggregate sampleResources) sampleOrders).body.length =
      (sampleResources.map typeOf).dedup.length :=
  ⟨sampleOrders_legal, (C6_table_shape sampleResources sampleOrders sampleOrders_legal).1⟩

/-- C9 (empty input). On the empty record sequence the aggregation yields three
empty maps, and for all legal orders the projection yields the header
`["Resource Type"]` and a body without rows; the command then hands exactly
this table to `OutputSelector` and prints no failure. -/
theorem C9_empty_input (o : RangeOrders) (h : o.Legal (aggregate [])) :
    aggregate [] = ⟨[], [], []⟩ ∧
    project (aggregate []) o = ⟨["Resource Type"], []⟩ ∧
    RunbookCommand ⟨none, none, [Except.ok []], o⟩ =
      [Effect.NextPage,
        Effect.OutputSelector 2 "table" ["Resource Type"] [] "." "runbooks.txt" "runbooks" true
          "sub-11111111-1111-11111-1111-1111111111111111"] := by
  have h1 : o.header = [] := List.Perm.eq_nil h.1
  have h2 : o.types = [] := List.Perm.eq_nil h.2.1
  have hp : project (aggregate []) o = ⟨["Resource Type"], []⟩ := by
    simp [project, buildHeader, buildBody, h1, h2, sort.Slice]
  refine ⟨rfl, hp, ?_⟩
  simp only [RunbookCommand, drainPager, List.nil_append, List.cons_append]
  rw [hp]

/-- Witness of C9: the only legal orders for empty maps are empty. -/
theorem C9_empty_input_witness :
    RangeOrders.Legal ⟨[], [], fun _ => []⟩ (aggregate []) ∧
    project (aggregate []) ⟨[], [], fun _ => []⟩ = ⟨["Resource Type"], []⟩ :=
  ⟨⟨List.Perm.refl _, List.Perm.refl _, fun _ _ => List.Perm.refl _⟩,
    (C9_empty_input ⟨[], [], fun _ => []⟩
      ⟨List.Perm.refl _, List.Perm.refl _, fun _ _ => List.Perm.refl _⟩).2.1⟩

/-- C10 (order independence). For every record sequence and every permutation
of it, the two aggregations give the same matrix (same outer keys, same cells),
the same set of resource types and the same set of locations; consequently, for
all legal orders of the map loops of either run, the first columns of the two
sorted bodies are the same list. -/
theorem C10_order_independence (resources resources' : List GenericResourceExpanded)
    (hp : resources.Perm resources') (o o' : RangeOrders)
    (h : o.Legal (aggregate resources)) (h' : o'.Legal (aggregate resources')) :
    (∀ t, t ∈ GoMap.keys (aggregate resources).inventory ↔
      t ∈ GoMap.keys (aggregate resources').inventory) ∧
    (∀ t l, cell (aggregate resources).inventory t l =
      cell (aggregate resources').inventory t l) ∧
    (∀ t, GoMap.lookup (aggregate resources).resourceTypes t =
      GoMap.lookup (aggregate resources').resourceTypes t) ∧
    (∀ l, GoMap.lookup (aggregate resources).resourceLocations l =
      GoMap.lookup (aggregate resources').resourceLocations l) ∧
    (project (aggregate resources) o).body.map firstColumn =
      (project (aggregate resources') o').body.map firstColumn := by
  have ht : ∀ t, t ∈ resources.map typeOf ↔ t ∈ resources'.map typeOf :=
    fun t => (hp.map typeOf).mem_iff
  have hl : ∀ l, l ∈ resources.map locationOf ↔ l ∈ resources'.map locationOf :=
    fun l => (hp.map locationOf).mem_iff
  refine ⟨?_, ?_, ?_, ?_, ?_⟩
  · intro t
    rw [mem_inventory_keys, mem_inventory_keys, ht]
  · intro t l
    rw [cell_aggregate, cell_aggregate]
    have hc : countOf resources t l = countOf resources' t l := hp.countP_eq _
    rw [hc]
  · intro t
    rw [lookup_resourceTypes, lookup_resourceTypes]
    simp only [ht]
  · intro l
    rw [lookup_resourceLocations, lookup_resourceLocations]
    simp only [hl]
  · apply eq_of_perm_of_strict id
    · have p1 := (body_firstColumn_perm (aggregate resources) o).trans
        (h.2.1.trans (resourceTypes_perm_dedup resources))
      have p2 := (body_firstColumn_perm (aggregate resources') o').trans
        (h'.2.1.trans (resourceTypes_perm_dedup resources'))
      exact p1.trans (((hp.map typeOf).dedup).trans p2.symm)
    · exact body_firstColumn_sorted _ o (Legal.types_nodup h)
    · exact body_firstColumn_sorted _ o' (Legal.types_nodup h')

/-- Witness of C10: the sample input and the same records in another order,
with different orders of the map loops. -/
theorem C10_order_independence_witness :
    sampleResources.Perm sampleResourcesSwapped ∧
    sampleOrders.Legal (aggregate sampleResources) ∧
    sampleOrdersSwapped.Legal (aggregate sampleResourcesSwapped) ∧
    (project (aggregate sampleResources) sampleOrders).body.map firstColumn =
      (project (aggregate sampleResourcesSwapped) sampleOrdersSwapped).body.map firstColumn :=
  ⟨by decide, sampleOrders_legal, sampleOrdersSwapped_legal,
    (C10_order_independence sampleResources sampleResourcesSwapped (by decide) sampleOrders
      sampleOrdersSwapped sampleOrders_legal sampleOrdersSwapped_legal).2.2.2.2⟩

/-! ## The claim on column alignment -/

/-- The cell computed for `(t, l)` is the placeholder when no record has this
type and location, and the decimal count otherwise. -/
theorem buildRow_aggregate (resources : List GenericResourceExpanded) (o : RangeOrders)
    (t : String) :
    buildRow (aggregate resources) o t = t :: (o.row t).map (cellSpec resources t) := by
  rw [buildRow_eq]
  congr 1
  apply List.map_congr_left
  intro l _
  exact cellFor_aggregate resources t l

/-- The cell of a row at one plus the position of `l` in an enumeration `ord`
of the locations, when the row loop followed `ord`. -/
theorem buildRow_cell (resources : List GenericResourceExpanded) (o : RangeOrders)
    (t l : String) (ord : List String) (hord : o.row t = ord) (hl : l ∈ ord) :
    (buildRow (aggregate resources) o t)[ord.indexOf l + 1]? =
      some (cellSpec resources t l) := by
  rw [buildRow_aggregate, hord, List.getElem?_cons_succ, List.getElem?_map,
    List.getElem?_indexOf hl]
  rfl

/-- C1, as the code has it. For every record sequence, all legal orders of the
map loops, every resource type `t` and every location `l` of the records, the
body has exactly one row whose first column is `t`; in it the cell at one plus
the position of `l` in the order of that row's own loop over the locations is
`"-"` when no record has `(t, l)` and the decimal count of such records
otherwise; and whenever that row's loop enumerates the locations in the order
of the header loop, this cell stands at the column index at which `l` stands
among the header's locations. -/
theorem C1_cell_under_header_when_aligned (resources : List GenericResourceExpanded)
    (o : RangeOrders) (h : o.Legal (aggregate resources)) (t l : String)
    (ht : t ∈ resources.map typeOf) (hl : l ∈ resources.map locationOf) :
    ∃ row, row ∈ (project (aggregate resources) o).body ∧ firstColumn row = t ∧
      (∀ row' ∈ (project (aggregate resources) o).body, firstColumn row' = t → row' = row) ∧
      row[(o.row t).indexOf l + 1]? = some (cellSpec resources t l) ∧
      (o.row t = o.header →
        (project (aggregate resources) o).header[o.header.indexOf l + 1]? = some l ∧
        row[o.header.indexOf l + 1]? = some (cellSpec resources t l)) := by
  have ht' : t ∈ o.types := h.2.1.mem_iff.2 ((mem_resourceTypes resources t).2 ht)
  have hlk : l ∈ GoMap.keys (aggregate resources).resourceLocations :=
    (mem_resourceLocations resources l).2 hl
  have hlrow : l ∈ o.row t := (h.2.2 t ht').mem_iff.2 hlk
  have hlhead : l ∈ o.header := h.1.mem_iff.2 hlk
  refine ⟨buildRow (aggregate resources) o t, ?_, firstColumn_buildRow _ o t, ?_, ?_, ?_⟩
  · exact (body_perm (aggregate resources) o).mem_iff.2 (List.mem_map_of_mem _ ht')
  · intro row' hrow' hfirst
    obtain ⟨t', _, rfl⟩ := List.mem_map.1 ((body_perm (aggregate resources) o).mem_iff.1 hrow')
    rw [firstColumn_buildRow] at hfirst
    rw [hfirst]
  · exact buildRow_cell resources o t l (o.row t) rfl hlrow
  · intro halign
    refine ⟨?_, buildRow_cell resources o t l o.header halign hlhead⟩
    simp only [project, buildHeader_eq, List.getElem?_cons_succ]
    exact List.getElem?_indexOf hlhead

/-- Witness of the amended C1: on the sample input, with every row loop in the
order of the header loop, the row of `"vm"` shows the count of `("vm",
"eastus")` under the header column of `"eastus"`. -/
theorem C1_cell_under_header_when_aligned_witness :
    sampleOrders.Legal (aggregate sampleResources) ∧
    "vm" ∈ sampleResources.map typeOf ∧ "eastus" ∈ sampleResources.map locationOf ∧
    sampleOrders.row "vm" = sampleOrders.header ∧
    ∃ row, row ∈ (project (aggregate sampleResources) sampleOrders).body ∧
      firstColumn row = "vm" ∧
      row[sampleOrders.header.indexOf "eastus" + 1]? =
        some (cellSpec sampleResources "vm" "eastus") := by
  refine ⟨sampleOrders_legal, by decide, by decide, rfl, ?_⟩
  obtain ⟨row, hmem, hfirst, _, _, haligned⟩ :=
    C1_cell_under_header_when_aligned sampleResources sampleOrders sampleOrders_legal
      "vm" "eastus" (by decide) (by decide)
  exact ⟨row, hmem, hfirst, (haligned rfl).2⟩

/-- C1 as stated fails: it asks for the cell under the header column of `l` for
every order of every loop. On the sample input the orders `crossedOrders` are
legal, `"vm"` is a type and `"eastus"` a location of the records, two records
have `("vm", "eastus")`, the header holds `"eastus"` at index 1, the only row
whose first column is `"vm"` is the second body row, and its cell at index 1
is `"-"`, not `"2"`. -/
theorem C1_crossed_orders_counterexample :
    crossedOrders.Legal (aggregate sampleResources) ∧
    "vm" ∈ sampleResources.map typeOf ∧ "eastus" ∈ sampleResources.map locationOf ∧
    countOf sampleResources "vm" "eastus" = 2 ∧
    cellSpec sampleResources "vm" "eastus" = "2" ∧
    project (aggregate sampleResources) crossedOrders =
      ⟨["Resource Type", "eastus", "westus"], [["st", "-", "1"], ["vm", "-", "2"]]⟩ ∧
    (project (aggregate sampleResources) crossedOrders).header[
      crossedOrders.header.indexOf "eastus" + 1]? = some "eastus" ∧
    (buildRow (aggregate sampleResources) crossedOrders "vm")[
      crossedOrders.header.indexOf "eastus" + 1]? = some "-" ∧
    (buildRow (aggregate sampleResources) crossedOrders "vm")[
      crossedOrders.header.indexOf "eastus" + 1]? ≠
        some (cellSpec sampleResources "vm" "eastus") :=
  ⟨crossedOrders_legal, by decide, by decide, by decide, by decide, by decide, by decide,
    by decide, by decide⟩

/-! ## The paged collection -/

theorem drainPager_ok_append (pre : List (List GenericResourceExpanded))
    (rest : List (Except String (List GenericResourceExpanded)))
    (acc : List GenericResourceExpanded) :
    drainPager (pre.map Except.ok ++ rest) acc =
      (List.replicate pre.length Effect.NextPage ++ (drainPager rest (acc ++ pre.flatten)).1,
        (drainPager rest (acc ++ pre.flatten)).2) := by
  induction pre generalizing acc with
  | nil => simp
  | cons page pages ih =>
    have h : drainPager (List.map Except.ok (page :: pages) ++ rest) acc =
        (Effect.NextPage :: (drainPager (pages.map Except.ok ++ rest) (acc ++ page)).1,
          (drainPager (pages.map Except.ok ++ rest) (acc ++ page)).2) := rfl
    rw [h, ih]
    simp only [List.length_cons, List.replicate_succ, List.flatten_cons, List.append_assoc,
      List.cons_append]

/-- Every pager either delivers all its pages or has a first failing fetch. -/
theorem pager_cases (pager : List (Except String (List GenericResourceExpanded))) :
    (∃ pre : List (List GenericResourceExpanded), pager = pre.map Except.ok) ∨
    ∃ (pre : List (List GenericResourceExpanded)) (err : String)
      (post : List (Except String (List GenericResourceExpanded))),
      pager = pre.map Except.ok ++ Except.error err :: post := by
  induction pager with
  | nil => exact Or.inl ⟨[], rfl⟩
  | cons p ps ih =>
    cases p with
    | error err => exact Or.inr ⟨[], err, ps, rfl⟩
    | ok page =>
      rcases ih with ⟨pre, h⟩ | ⟨pre, err, post, h⟩
      · exact Or.inl ⟨page :: pre, by rw [h]; rfl⟩
      · exact Or.inr ⟨page :: pre, err, post, by rw [h]; rfl⟩

/-- C7 (paged collection is fail-fast, nothing emitted from an incomplete drain). A pager whose
fetches all succeed is drained by one fetch per page into the concatenation of
the pages in fetch order, and the command hands the table of exactly these
records to `OutputSelector`. A pager whose first failing fetch comes after the
pages `pre` makes the loop stop there: `pre.length + 1` fetches happen whatever
follows, and the command prints the failure and ends without any call of
`OutputSelector`. -/
theorem C7_paged_collection_fail_fast (pre : List (List GenericResourceExpanded))
    (err : String) (post : List (Except String (List GenericResourceExpanded)))
    (o : RangeOrders) :
    drainPager (pre.map Except.ok) [] =
      (List.replicate pre.length Effect.NextPage, Except.ok pre.flatten) ∧
    RunbookCommand ⟨none, none, pre.map Except.ok, o⟩ =
      List.replicate pre.length Effect.NextPage ++
        [Effect.OutputSelector 2 "table" (project (aggregate pre.flatten) o).header
          (project (aggregate pre.flatten) o).body "." "runbooks.txt" "runbooks" true
          "sub-11111111-1111-11111-1111-1111111111111111"] ∧
    drainPager (pre.map Except.ok ++ Except.error err :: post) [] =
      (List.replicate (pre.length + 1) Effect.NextPage, Except.error err) ∧
    RunbookCommand ⟨none, none, pre.map Except.ok ++ Except.error err :: post, o⟩ =
      List.replicate (pre.length + 1) Effect.NextPage ++
        [Effect.Println ("Failed to get next page: " ++ err)] := by
  have hok : drainPager (pre.map Except.ok) [] =
      (List.replicate pre.length Effect.NextPage, Except.ok pre.flatten) := by
    have h := drainPager_ok_append pre [] []
    simpa [drainPager] using h
  have herr : drainPager (pre.map Except.ok ++ Except.error err :: post) [] =
      (List.replicate (pre.length + 1) Effect.NextPage, Except.error err) := by
    rw [drainPager_ok_append]
    simp [drainPager, List.replicate_succ']
  refine ⟨hok, ?_, herr, ?_⟩
  · simp only [RunbookCommand, hok]
  · simp only [RunbookCommand, herr]

/-! ## The composite commands -/

theorem AzAllEnumChecksCommand.Run_eq_runAll (azure : Call → Option String) (f : Flags)
    (version : String) (p : Process) :
    AzAllEnumChecksCommand.Run azure f version p =
      runAll azure (enumChecksCalls f version) p := rfl

theorem runAll_exited (azure : Call → Option String) (calls : List Call) (p : Process)
    (code : Nat) (h : p.exit = some code) : runAll azure calls p = p := by
  induction calls with
  | nil => rfl
  | cons c cs ih =>
    have hstep : runModule azure c p = p := by
      unfold runModule
      rw [h]
    have hcons : runAll azure (c :: cs) p = runAll azure cs (runModule azure c p) := rfl
    rw [hcons, hstep, ih]

theorem runAll_ok (azure : Call → Option String) (calls : List Call) (p : Process)
    (hp : p.exit = none) (h : ∀ c ∈ calls, azure c = none) :
    runAll azure calls p = ⟨p.events ++ calls.map Event.Invoked, none⟩ := by
  induction calls generalizing p with
  | nil =>
    obtain ⟨events, exit⟩ := p
    simp only at hp
    subst hp
    simp [runAll]
  | cons c cs ih =>
    have hc : azure c = none := h c (List.mem_cons_self _ _)
    have hstep : runModule azure c p = ⟨p.events ++ [Event.Invoked c], none⟩ := by
      unfold runModule
      rw [hp, hc]
    have hcons : runAll azure (c :: cs) p = runAll azure cs (runModule azure c p) := rfl
    rw [hcons, hstep, ih _ rfl (fun d hd => h d (List.mem_cons_of_mem _ hd))]
    simp

theorem runAll_append (azure : Call → Option String) (xs ys : List Call) (p : Process) :
    runAll azure (xs ++ ys) p = runAll azure ys (runAll azure xs p) := by
  simp [runAll, List.foldl_append]

theorem runAll_first_failure (azure : Call → Option String) (pre post : List Call) (c : Call)
    (err : String) (hpre : ∀ a ∈ pre, azure a = none) (hc : azure c = some err) :
    runAll azure (pre ++ c :: post) Process.start =
      ⟨pre.map Event.Invoked ++ [Event.Invoked c, Event.LogFatal err], some 1⟩ := by
  rw [runAll_append, runAll_ok azure pre Process.start rfl hpre]
  have hcons : ∀ q, runAll azure (c :: post) q = runAll azure post (runModule azure c q) :=
    fun _ => rfl
  rw [hcons]
  have hstep : runModule azure c ⟨Process.start.events ++ pre.map Event.Invoked, none⟩ =
      ⟨pre.map Event.Invoked ++ [Event.Invoked c, Event.LogFatal err], some 1⟩ := by
    simp [runModule, hc, Process.start]
  rw [hstep]
  exact runAll_exited azure post _ 1 rfl

theorem enumChecksCalls_targets (f : Flags) (version : String) :
    (enumChecksCalls f version).map Call.target =
      [AzureFunc.AzInventoryCommand, AzureFunc.AzRBACCommand, AzureFunc.AzVMsCommand,
        AzureFunc.AzStorageCommand] := rfl

theorem executed_eq_false (events : List Event) (exit : Option Nat) (m : AzureFunc)
    (h : ∀ e ∈ events, ∀ c, e = Event.Invoked c → c.target ≠ m) :
    Process.executed ⟨events, exit⟩ m = false := by
  unfold Process.executed
  rw [List.any_eq_false]
  intro e he
  cases e with
  | Invoked c => simpa using h _ he c rfl
  | LogFatal err => simp

/-- C4, as the code has it: a member failure is fatal. When the calls of
`all-enumchecks` split into `pre`, `c` and `post`, the members of `pre` return
nil and the member `c` returns an error, the run consists of the calls of `pre`
and `c` in order followed by `log.Fatal` of that error, the process exits with
status 1, and no member of `post` is called. -/
theorem C4_member_failure_is_fatal (azure : Call → Option String) (f : Flags)
    (version : String) (pre post : List Call) (c : Call) (err : String)
    (hsplit : enumChecksCalls f version = pre ++ c :: post)
    (hpre : ∀ a ∈ pre, azure a = none) (hc : azure c = some err) :
    AzAllEnumChecksCommand.Run azure f version Process.start =
      ⟨pre.map Event.Invoked ++ [Event.Invoked c, Event.LogFatal err], some 1⟩ ∧
    ∀ d ∈ post,
      (AzAllEnumChecksCommand.Run azure f version Process.start).executed d.target = false := by
  have hrun : AzAllEnumChecksCommand.Run azure f version Process.start =
      ⟨pre.map Event.Invoked ++ [Event.Invoked c, Event.LogFatal err], some 1⟩ := by
    rw [AzAllEnumChecksCommand.Run_eq_runAll, hsplit]
    exact runAll_first_failure azure pre post c err hpre hc
  refine ⟨hrun, ?_⟩
  intro d hd
  rw [hrun]
  have hn : ((pre ++ c :: post).map Call.target).Nodup := by
    rw [← hsplit, enumChecksCalls_targets]
    decide
  rw [List.map_append, List.map_cons, List.nodup_append] at hn
  obtain ⟨_, hcp, hdis⟩ := hn
  have hdmem : d.target ∈ c.target :: post.map Call.target :=
    List.mem_cons_of_mem _ (List.mem_map_of_mem _ hd)
  apply executed_eq_false
  intro e he a hea
  subst hea
  rcases List.mem_append.1 he with he | he
  · obtain ⟨b, hb, hbe⟩ := List.mem_map.1 he
    cases hbe
    intro heq
    exact hdis (List.mem_map_of_mem _ hb) (heq ▸ hdmem)
  · simp only [List.mem_cons, Event.Invoked.injEq, List.mem_singleton, List.not_mem_nil,
      or_false] at he
    rcases he with rfl | he
    · intro heq
      rw [List.nodup_cons] at hcp
      exact hcp.1 (heq ▸ List.mem_map_of_mem _ hd)
    · exact nomatch he

/-- Witness of the amended C4: `rbac` fails after `inventory` has succeeded. -/
theorem C4_member_failure_is_fatal_witness :
    AzAllEnumChecksCommand.Run denyRBAC sampleFlags "1.0" Process.start =
      ⟨[Event.Invoked (inventoryCall sampleFlags "1.0"),
        Event.Invoked (rbacCall sampleFlags "1.0"), Event.LogFatal "denied"], some 1⟩ :=
  (C4_member_failure_is_fatal denyRBAC sampleFlags "1.0" [inventoryCall sampleFlags "1.0"]
    [vmsCall sampleFlags "1.0", storageCall sampleFlags "1.0"] (rbacCall sampleFlags "1.0")
    "denied" rfl (by decide) (by decide)).1

/-- C4 as stated fails: with `rbac` returning an error, the members `vms` and
`storage` that follow it in `all-enumchecks` are not called. -/
theorem C4_best_effort_counterexample :
    denyRBAC (rbacCall sampleFlags "1.0") = some "denied" ∧
    (AzAllEnumChecksCommand.Run denyRBAC sampleFlags "1.0" Process.start).executed
      AzureFunc.AzInventoryCommand = true ∧
    (AzAllEnumChecksCommand.Run denyRBAC sampleFlags "1.0" Process.start).executed
      AzureFunc.AzVMsCommand = false ∧
    (AzAllEnumChecksCommand.Run denyRBAC sampleFlags "1.0" Process.start).executed
      AzureFunc.AzStorageCommand = false ∧
    (AzAllEnumChecksCommand.Run denyRBAC sampleFlags "1.0" Process.start).exit = some 1 := by
  decide

/-- C8 (composite sequencing). When every member returns nil, `all-enumchecks`
calls exactly the module functions of `inventory`, `rbac`, `vms` and `storage`,
each once and in this order, every call carrying the current values of the
tenant, subscription, output directory, verbosity, wrap and merged-table
flags; when the `runbooks` module function returns nil, `all-vulnchecks` calls
exactly it, once, with the same flag values. -/
theorem C8_composite_sequencing (azure : Call → Option String) (f : Flags) (version : String)
    (h : ∀ c ∈ enumChecksCalls f version, azure c = none)
    (hv : azure (runbooksCall f version) = none) :
    AzAllEnumChecksCommand.Run azure f version Process.start =
      ⟨[Event.Invoked (inventoryCall f version), Event.Invoked (rbacCall f version),
        Event.Invoked (vmsCall f version), Event.Invoked (storageCall f version)], none⟩ ∧
    AzAllVulnChecksCommand.Run azure f version Process.start =
      ⟨[Event.Invoked (runbooksCall f version)], none⟩ ∧
    [(inventoryCall f version).target, (rbacCall f version).target,
      (vmsCall f version).target, (storageCall f version).target,
      (runbooksCall f version).target] =
      [AzureFunc.AzInventoryCommand, AzureFunc.AzRBACCommand, AzureFunc.AzVMsCommand,
        AzureFunc.AzStorageCommand, AzureFunc.AzRunbooksCommand] ∧
    ∀ c ∈ runbooksCall f version :: enumChecksCalls f version,
      c.tenantID = f.AzTenantID ∧ c.subscription = f.AzSubscription ∧
      c.outputDirectory = f.AzOutputDirectory ∧ c.verbosity = f.AzVerbosity ∧
      c.wrap = f.AzWrapTable ∧ c.merged = f.AzMergedTable := by
  refine ⟨?_, ?_, rfl, ?_⟩
  · rw [AzAllEnumChecksCommand.Run_eq_runAll, runAll_ok azure _ Process.start rfl h]
    rfl
  · simp [AzAllVulnChecksCommand.Run, AzRunbooksCommand.Run, runModule, Process.start, hv]
  · intro c hc
    simp only [enumChecksCalls, List.mem_cons, List.mem_singleton, List.not_mem_nil,
      or_false] at hc
    rcases hc with rfl | rfl | rfl | rfl | rfl <;> exact ⟨rfl, rfl, rfl, rfl, rfl, rfl⟩

/-- Witness of C8: every module function returns nil. -/
theorem C8_composite_sequencing_witness :
    AzAllEnumChecksCommand.Run allSucceed sampleFlags "1.0" Process.start =
      ⟨[Event.Invoked (inventoryCall sampleFlags "1.0"),
        Event.Invoked (rbacCall sampleFlags "1.0"),
        Event.Invoked (vmsCall sampleFlags "1.0"),
        Event.Invoked (storageCall sampleFlags "1.0")], none⟩ :=
  (C8_composite_sequencing allSucceed sampleFlags "1.0" (fun _ _ => rfl) rfl).1

end Cloudfox
